import Mathlib

/-!
A verification development for the `xlmdb` search helper
(`src/search-helper.ts`).

Modelling choices, all taken from the source:

* JavaScript runtime values are modelled by `HVal` together with an
  explicit object heap `Heap`: a structured value (object or array) is a
  reference `HVal.vref a` into the heap, and a heap cell is the ordered
  list of its enumerable properties (name, member).  Reference identity
  (needed for the `WeakSet` cycle guard of `deepSearchHelper`) is heap
  address equality, and cyclic object graphs are representable.
* Database keys are JavaScript strings ordered by their UTF-16 code
  units; they are modelled as `List Nat` with lexicographic order
  (`keyLt`/`keyLe`).  The sentinel character `"￿"` appended by
  `search` to build the upper range bound is `sentinel = 0xFFFF`.
* The LMDB collection is the external vendored dependency; per the
  specification it provides ordered range iteration over `[start, end)`.
  `getRange` models that contract: the collection is the ascending list
  of its (key, value) pairs and the range is the order-preserving
  selection of pairs with `start ≤ key` and (when an end bound is set)
  `key < end`.
* The recursion of `deepSearchHelper` is bounded by explicit fuel, decreased
  exactly when an unvisited reference is expanded; `dshVal_fuel_isSome`
  proves that the fuel supplied by `deepSearchTop` always suffices, so
  the fuel is an artifact of totality, never observable.
* `Array.prototype.sort` with a comparator is modelled by a stable
  comparison sort (`jsSort`, insertion sort with `cmp a b ≤ 0`).
-/

/-- A JavaScript runtime value: a string, a number, a boolean, `null`,
`undefined`, or a reference to a heap object/array. -/
inductive HVal where
  | vstr (s : String)
  | vnum (n : Int)
  | vbool (b : Bool)
  | vnull
  | vundef
  | vref (a : Nat)
deriving DecidableEq, Repr

/-- One heap cell: the ordered enumerable properties of an object (for an
array: its indices), as iterated by `for (const key in obj)`. -/
abbrev Node := List (String × HVal)

/-- The object heap: cell `a` is `heap[a]`.  A reference outside the heap
never arises from a real JavaScript object graph but the model stays
total by reading such a cell as empty. -/
abbrev Heap := List Node

/-- Models `s.toLowerCase()` on JavaScript strings, character-wise. -/
def jsToLower (s : String) : String :=
  ⟨s.data.map Char.toLower⟩

/-- Tests that `hay` starts with `needle`, on character lists. -/
def startsWithChars : List Char → List Char → Bool
  | _, [] => true
  | [], _ :: _ => false
  | a :: as, b :: bs => a == b && startsWithChars as bs

/-- Tests that `needle` occurs contiguously in `hay`, on character lists. -/
def infixChars (needle : List Char) : List Char → Bool
  | [] => startsWithChars [] needle
  | c :: t => startsWithChars (c :: t) needle || infixChars needle t

/-- Models `hay.includes(needle)` on JavaScript strings: substring containment. -/
def strIncludes (hay needle : String) : Bool :=
  infixChars needle.data hay.data

/-- The member values of heap cell `a`, in property order
(`obj[key]` for each `key in obj`). -/
def nodeVals (heap : Heap) (a : Nat) : List HVal :=
  (heap.getD a []).map Prod.snd

/-- The member loop of `deepSearchHelper`:
`for (const key in obj) { if (deepSearchHelper(obj[key], text, visited)) return true; }`.
The recursive call on each member is the parameter `rec`; the mutated
`WeakSet` is threaded as the returned visited set. -/
def dshList (rec : HVal → Finset Nat → Option (Bool × Finset Nat)) :
    List HVal → Finset Nat → Option (Bool × Finset Nat)
  | [], vis => some (false, vis)
  | m :: ms, vis =>
    match rec m vis with
    | none => none
    | some (true, vis') => some (true, vis')
    | some (false, vis') => dshList rec ms vis'

/-- Models `deepSearchHelper(obj, text, visited)` from `search-helper.ts`:
a string matches when its lower-cased form contains `text`; an object
(`typeof obj === "object" && obj !== null`, i.e. a reference) already in
the visited set yields `false`, otherwise it is marked visited and its
members are searched in order; every other value yields `false`.
Fuel bounds the depth of reference expansion; `dshVal_fuel_isSome` shows
`heap.length + 1` fuel is always enough. -/
def dshVal (heap : Heap) (text : String) :
    Nat → HVal → Finset Nat → Option (Bool × Finset Nat)
  | fuel, v, vis =>
    match v with
    | HVal.vstr s => some (strIncludes (jsToLower s) text, vis)
    | HVal.vref a =>
      if a ∈ vis then some (false, vis)
      else
        match fuel with
        | 0 => none
        | fuel' + 1 => dshList (dshVal heap text fuel') (nodeVals heap a) (insert a vis)
    | _ => some (false, vis)

/-- Models `deepSearchHelper(obj, text)` as called from `search`: a fresh visited
set per top-level value, with sufficient fuel. -/
def deepSearchTop (heap : Heap) (text : String) (v : HVal) : Bool :=
  match dshVal heap text (heap.length + 1) v ∅ with
  | some (b, _) => b
  | none => false

/-- The sentinel code unit `"￿"` appended to a non-empty prefix to
form the exclusive upper bound of the scanned range. -/
def sentinel : Nat := 0xFFFF

/-- Strict lexicographic order on keys (JavaScript string `<` over code
units). -/
def keyLt : List Nat → List Nat → Bool
  | [], [] => false
  | [], _ :: _ => true
  | _ :: _, [] => false
  | a :: as, b :: bs => a < b || (a == b && keyLt as bs)

/-- Non-strict lexicographic order on keys. -/
def keyLe (a b : List Nat) : Bool :=
  keyLt a b || a == b

/-- The range call `getRange({ start, end })` of the external store: the ascending lazy
sequence of pairs with key in `[start, end)` (no upper bound when `end`
is absent).  The collection is its ascending pair list, so the range is
an order-preserving filter. -/
def getRange (db : List (List Nat × HVal)) (start : List Nat)
    (stop : Option (List Nat)) : List (List Nat × HVal) :=
  db.filter fun e =>
    keyLe start e.1 && (match stop with | some s => keyLt e.1 s | none => true)

/-- Models `SearchOptions<T>` from `search-helper.ts`.  `pfx` stands for the source
field named like the Lean keyword for prefixed notation (a Lean keyword).  `rangeOptions` is a verbatim
pass-through to the range call of the store and carries no behavior of this
system, so it is not modelled. -/
structure SearchOptions where
  pfx : Option (List Nat)
  limit : Option Int
  sort : Option (HVal → HVal → Int)
  filters : List (HVal → List Nat → Bool)
  deepSearch : Option String
  query : Option String

/-- The empty options object (`search(db)` / `search(db, {})`). -/
def SearchOptions.empty : SearchOptions :=
  ⟨none, none, none, [], none, none⟩

/-- JavaScript `d || q` on two optional strings: `d` unless it is absent
or the empty string (falsy). -/
def jsTruthyOr (d q : Option String) : Option String :=
  match d with
  | some s => if s = "" then q else some s
  | none => q

/-- Models `results.length >= limit` where an absent limit is `Infinity`. -/
def stopAt (limit : Option Int) (len : Nat) : Bool :=
  match limit with
  | some l => l ≤ (len : Int)
  | none => false

/-- The scan loop of `search`: for each ranged pair, skip it when there
are filters and not all pass; otherwise push it and stop as soon as
`results.length >= limit`. -/
def searchLoop (fs : List (HVal → List Nat → Bool)) (limit : Option Int) :
    List (List Nat × HVal) → List (List Nat × HVal) → List (List Nat × HVal)
  | [], acc => acc
  | e :: rest, acc =>
    if 0 < fs.length && !(fs.all fun f => f e.2 e.1) then
      searchLoop fs limit rest acc
    else if stopAt limit (acc ++ [e]).length then acc ++ [e]
    else searchLoop fs limit rest (acc ++ [e])

/-- Models `results.sort` with the comparator over values: a stable comparison
sort placing `a` before `b` when `cmp a b ≤ 0`. -/
def jsSort (cmp : HVal → HVal → Int) (l : List (List Nat × HVal)) :
    List (List Nat × HVal) :=
  l.insertionSort fun a b => cmp a.2 b.2 ≤ 0

/-- Models `search(db, options)` from `search-helper.ts`, step for step:
`start = options.prefix ?? ""`; `end = start ? start + "￿" : undefined`;
range iteration over `[start, end)`; `allFilters` is the explicit filter
list plus, when `(options.deepSearch || options.query)?.toLowerCase()` is
truthy, one deep-search predicate over that lower-cased term; the scan
loop with the `limit` break; finally the optional comparator sort. -/
def search (heap : Heap) (db : List (List Nat × HVal)) (o : SearchOptions) :
    List (List Nat × HVal) :=
  let start := o.pfx.getD []
  let stop := if start = [] then none else some (start ++ [sentinel])
  let ranged := getRange db start stop
  let searchText := (jsTruthyOr o.deepSearch o.query).map jsToLower
  let allFilters := o.filters ++
    (match searchText with
     | some t => if t = "" then [] else [fun v _ => deepSearchTop heap t v]
     | none => [])
  let results := searchLoop allFilters o.limit ranged []
  match o.sort with
  | some c => jsSort c results
  | none => results

/-- Returns `o` with the comparator removed (used to state that sorting happens
after, and independently of, accumulation). -/
def clearSort (o : SearchOptions) : SearchOptions :=
  ⟨o.pfx, o.limit, none, o.filters, o.deepSearch, o.query⟩

/-- Returns `o` with comparator `c` installed. -/
def setSort (o : SearchOptions) (c : HVal → HVal → Int) : SearchOptions :=
  ⟨o.pfx, o.limit, some c, o.filters, o.deepSearch, o.query⟩

/-- Field access `v.f` used by example filters and comparators. -/
def getField (heap : Heap) (v : HVal) (f : String) : HVal :=
  match v with
  | HVal.vref a => ((heap.getD a []).lookup f).getD HVal.vundef
  | _ => HVal.vundef

/-- Numeric coercion used by example comparators. -/
def asNum : HVal → Int
  | HVal.vnum n => n
  | _ => 0

/-- Heap for the deep-search examples: cell 0 is
`{name:"Book", details:<cell 1>}`, cell 1 is
`{description:"A story about a blue pen."}`, cell 2 is `{name:"Pen"}`,
cell 3 is `{name:"Table", price:5}` (no "pen" anywhere). -/
def heap3 : Heap :=
  [[("name", HVal.vstr "Book"), ("details", HVal.vref 1)],
   [("description", HVal.vstr "A story about a blue pen.")],
   [("name", HVal.vstr "Pen")],
   [("name", HVal.vstr "Table"), ("price", HVal.vnum 5)]]

/-- Collection over `heap3`: the Book record, the Pen record, and the
non-matching record, in key order. -/
def db3 : List (List Nat × HVal) :=
  [([1], HVal.vref 0), ([2], HVal.vref 2), ([3], HVal.vref 3)]

/-- Heap for the limit-then-sort example: objects `{v:5} {v:1} {v:9} {v:2}`. -/
def heap4 : Heap :=
  [[("v", HVal.vnum 5)], [("v", HVal.vnum 1)], [("v", HVal.vnum 9)], [("v", HVal.vnum 2)]]

/-- Collection `k1{v:5}, k2{v:1}, k3{v:9}, k4{v:2}` in key order. -/
def db4 : List (List Nat × HVal) :=
  [([1], HVal.vref 0), ([2], HVal.vref 1), ([3], HVal.vref 2), ([4], HVal.vref 3)]

/-- The comparator `(a, b) => a.v - b.v` over `heap4`. -/
def cmp4 (a b : HVal) : Int :=
  asNum (getField heap4 a "v") - asNum (getField heap4 b "v")

/-- Five matching entries `k1..k5` in key order. -/
def db5 : List (List Nat × HVal) :=
  [([1], HVal.vnum 1), ([2], HVal.vnum 2), ([3], HVal.vnum 3),
   ([4], HVal.vnum 4), ([5], HVal.vnum 5)]

/-- A one-entry collection. -/
def db6 : List (List Nat × HVal) := [([1], HVal.vnum 7)]

/-- A collection whose only value is the string `"xyz"`. -/
def db7 : List (List Nat × HVal) := [([1], HVal.vstr "xyz")]

/-- A record with no string fields at all: `{a:1}`. -/
def heap10 : Heap := [[("a", HVal.vnum 1)]]

/-- Collection holding the string-free record of `heap10`. -/
def db10 : List (List Nat × HVal) := [([1], HVal.vref 0)]

/-- A cyclic object graph: cell 0 is `{self:<cell 0>, name:"needle"}`. -/
def heapC : Heap := [[("self", HVal.vref 0), ("name", HVal.vstr "needle")]]

/-- Keys matching and not matching the example key-prefix `[1]`. -/
def dbP : List (List Nat × HVal) :=
  [([1], HVal.vnum 1), ([1, 2], HVal.vnum 2), ([2], HVal.vnum 3)]

/-! ### Lexicographic key order and the prefix range bound -/

theorem keyLe_nil (k : List Nat) : keyLe [] k = true := by
  cases k <;> simp [keyLe, keyLt]

theorem keyLe_of_isPrefixOf :
    ∀ p k : List Nat, p.isPrefixOf k = true → keyLe p k = true := by
  intro p
  induction p with
  | nil => intro k _; exact keyLe_nil k
  | cons a as ih =>
    intro k h
    cases k with
    | nil => simp [List.isPrefixOf] at h
    | cons b bs =>
      simp only [List.isPrefixOf, Bool.and_eq_true, beq_iff_eq] at h
      obtain ⟨rfl, hp⟩ := h
      have h' : keyLt as bs = true ∨ as = bs := by
        simpa [keyLe] using ih bs hp
      rcases h' with h1 | h2
      · simp [keyLe, keyLt, h1]
      · subst h2; simp [keyLe]

theorem keyLt_sentinel_of_isPrefixOf :
    ∀ p k : List Nat, p.isPrefixOf k = true → (∀ c ∈ k, c < sentinel) →
      keyLt k (p ++ [sentinel]) = true := by
  intro p
  induction p with
  | nil =>
    intro k _ hk
    cases k with
    | nil => simp [keyLt]
    | cons c cs =>
      have : c < sentinel := hk c (List.mem_cons_self c cs)
      simp [keyLt, this]
  | cons a as ih =>
    intro k h hk
    cases k with
    | nil => simp [List.isPrefixOf] at h
    | cons b bs =>
      simp only [List.isPrefixOf, Bool.and_eq_true, beq_iff_eq] at h
      obtain ⟨rfl, hp⟩ := h
      have := ih bs hp (fun c hc => hk c (List.mem_cons_of_mem _ hc))
      simp [keyLt, this]

theorem isPrefixOf_of_range :
    ∀ p k : List Nat, keyLe p k = true → keyLt k (p ++ [sentinel]) = true →
      p.isPrefixOf k = true := by
  intro p
  induction p with
  | nil => intro k _ _; simp [List.isPrefixOf]
  | cons a as ih =>
    intro k hle hlt
    cases k with
    | nil => simp [keyLe, keyLt] at hle
    | cons b bs =>
      by_cases hab : a = b
      · subst hab
        have hle' : keyLt as bs = true ∨ as = bs := by
          simpa [keyLe, keyLt] using hle
        have hlt' : keyLt bs (as ++ [sentinel]) = true := by
          simpa [keyLt] using hlt
        have hpre : as.isPrefixOf bs = true := by
          rcases hle' with h1 | h2
          · exact ih bs (by simp [keyLe, h1]) hlt'
          · subst h2
            exact List.isPrefixOf_iff_prefix.mpr (List.prefix_refl as)
        simp [List.isPrefixOf, hpre]
      · exfalso
        have h1 : a < b := by
          simpa [keyLe, keyLt, hab] using hle
        have h2 : b < a ∨ b = a := by
          have := hlt
          simp only [List.cons_append, keyLt, Bool.or_eq_true, Bool.and_eq_true,
            beq_iff_eq, decide_eq_true_eq] at this
          rcases this with h | ⟨h, _⟩
          · exact Or.inl h
          · exact Or.inr h
        rcases h2 with h2 | h2 <;> omega

/-- For keys below the sentinel, membership in the scanned range
`[p, p ++ [sentinel])` is exactly "starts with `p`". -/
theorem range_eq_isPrefixOf (p k : List Nat) (hk : ∀ c ∈ k, c < sentinel) :
    (keyLe p k && keyLt k (p ++ [sentinel])) = p.isPrefixOf k := by
  rw [Bool.eq_iff_iff]
  simp only [Bool.and_eq_true]
  constructor
  · rintro ⟨h1, h2⟩; exact isPrefixOf_of_range p k h1 h2
  · intro h
    exact ⟨keyLe_of_isPrefixOf p k h, keyLt_sentinel_of_isPrefixOf p k h hk⟩

/-! ### The scan loop -/

/-- The skip guard of the loop collapses to "some filter fails": with an
empty filter list `every` is vacuously true. -/
theorem loop_guard_eq (fs : List (HVal → List Nat → Bool)) (e : List Nat × HVal) :
    (decide (0 < fs.length) && !(fs.all fun f => f e.2 e.1)) =
      !(fs.all fun f => f e.2 e.1) := by
  cases fs <;> simp [List.all]

theorem searchLoop_no_limit (fs : List (HVal → List Nat → Bool)) :
    ∀ (l acc : List (List Nat × HVal)),
      searchLoop fs none l acc = acc ++ l.filter (fun e => fs.all fun f => f e.2 e.1) := by
  intro l
  induction l with
  | nil => intro acc; simp [searchLoop]
  | cons e rest ih =>
    intro acc
    rw [searchLoop, loop_guard_eq]
    cases hpass : (fs.all fun f => f e.2 e.1) with
    | false => simp [hpass, ih, List.filter_cons]
    | true => simp [hpass, stopAt, ih, List.filter_cons, List.append_assoc]

theorem searchLoop_limit (fs : List (HVal → List Nat → Bool)) (L : Int) :
    ∀ (l acc : List (List Nat × HVal)), (acc.length : Int) < L →
      searchLoop fs (some L) l acc =
        acc ++ (l.filter (fun e => fs.all fun f => f e.2 e.1)).take (L - acc.length).toNat := by
  intro l
  induction l with
  | nil => intro acc _; simp [searchLoop]
  | cons e rest ih =>
    intro acc h
    rw [searchLoop, loop_guard_eq]
    cases hpass : (fs.all fun f => f e.2 e.1) with
    | false => simp [hpass, ih acc h, List.filter_cons]
    | true =>
      rw [if_neg (by simp [hpass])]
      have hlen : (acc ++ [e]).length = acc.length + 1 := by simp
      by_cases hstop : L ≤ (acc.length + 1 : Int)
      · rw [if_pos (by simp [stopAt, hlen]; omega)]
        have h1 : (L - acc.length).toNat = 1 := by omega
        simp [List.filter_cons, hpass, h1]
      · rw [if_neg (by simp [stopAt, hlen]; omega)]
        rw [ih (acc ++ [e]) (by rw [hlen]; push_cast; omega)]
        have h1 : (L - acc.length).toNat = (L - (acc.length + 1)).toNat + 1 := by omega
        simp [List.filter_cons, hpass, h1, hlen, List.append_assoc]

theorem searchLoop_limit_start (fs : List (HVal → List Nat → Bool)) (L : Int)
    (l : List (List Nat × HVal)) (h : 1 ≤ L) :
    searchLoop fs (some L) l [] =
      (l.filter (fun e => fs.all fun f => f e.2 e.1)).take L.toNat := by
  have := searchLoop_limit fs L l [] (by simp; omega)
  simpa using this

theorem searchLoop_limit_nonpos (fs : List (HVal → List Nat → Bool)) (L : Int)
    (hL : L ≤ 0) :
    ∀ l : List (List Nat × HVal),
      searchLoop fs (some L) l [] =
        (l.filter (fun e => fs.all fun f => f e.2 e.1)).take 1 := by
  intro l
  induction l with
  | nil => simp [searchLoop]
  | cons e rest ih =>
    rw [searchLoop, loop_guard_eq]
    cases hpass : (fs.all fun f => f e.2 e.1) with
    | false => simp [hpass, ih, List.filter_cons]
    | true =>
      rw [if_neg (by simp [hpass])]
      rw [if_pos (by simp [stopAt]; omega)]
      simp [List.filter_cons, hpass]

theorem searchLoop_sublist (fs : List (HVal → List Nat → Bool)) (lim : Option Int) :
    ∀ (l acc : List (List Nat × HVal)),
      (searchLoop fs lim l acc).Sublist (acc ++ l) := by
  intro l
  induction l with
  | nil => intro acc; simp [searchLoop]
  | cons e rest ih =>
    intro acc
    rw [searchLoop]
    by_cases hg : (decide (0 < fs.length) && !(fs.all fun f => f e.2 e.1)) = true
    · rw [if_pos hg]
      exact (ih acc).trans (by simp)
    · rw [if_neg hg]
      by_cases hs : stopAt lim (acc ++ [e]).length = true
      · rw [if_pos hs]
        exact (List.append_sublist_append_left acc).mpr (by simp)
      · rw [if_neg hs]
        have := ih (acc ++ [e])
        simpa using this

theorem getRange_nil_none (db : List (List Nat × HVal)) : getRange db [] none = db := by
  simp [getRange, keyLe_nil]

/-! ### Deep search: reachability specification and DFS correctness -/

/-- A matching string is reachable from `v` avoiding the visited set `S`:
either `v` is itself a string whose lower-cased form contains `text`, or
`v` is an unvisited reference to a cell one of whose member values
reaches a matching string.  With `S = ∅` this is plain reachability of a
matching string through nested objects and arrays. -/
inductive Finds (heap : Heap) (text : String) : HVal → Finset Nat → Prop where
  | str {s : String} {S : Finset Nat} :
      strIncludes (jsToLower s) text = true → Finds heap text (HVal.vstr s) S
  | ref {a : Nat} {m : HVal} {S : Finset Nat} :
      a ∉ S → m ∈ nodeVals heap a → Finds heap text m S →
        Finds heap text (HVal.vref a) S

theorem Finds.anti {heap : Heap} {text : String} {S S' : Finset Nat}
    (hsub : S ⊆ S') : ∀ {v : HVal}, Finds heap text v S' → Finds heap text v S := by
  intro v h
  induction h with
  | str h => exact Finds.str h
  | ref ha hm _ ih => exact Finds.ref (fun hc => ha (hsub hc)) hm (ih hsub)

theorem finds_insert {heap : Heap} {text : String} (a : Nat) {S : Finset Nat} :
    ∀ {w : HVal}, Finds heap text w S →
      Finds heap text w (insert a S) ∨
        ∃ m ∈ nodeVals heap a, Finds heap text m (insert a S) := by
  intro w h
  induction h with
  | str h => exact Or.inl (Finds.str h)
  | @ref b m S hb hm _ ih =>
    rcases ih with ih | ih
    · by_cases hba : b = a
      · subst hba
        exact Or.inr ⟨m, hm, ih⟩
      · exact Or.inl (Finds.ref (by simp [Finset.mem_insert, hba, hb]) hm ih)
    · exact Or.inr ih

theorem dshList_grow {rec : HVal → Finset Nat → Option (Bool × Finset Nat)}
    (hrec : ∀ m vis b vis', rec m vis = some (b, vis') → vis ⊆ vis') :
    ∀ (l : List HVal) (vis b vis'),
      dshList rec l vis = some (b, vis') → vis ⊆ vis' := by
  intro l
  induction l with
  | nil =>
    intro vis b vis' h
    simp only [dshList, Option.some.injEq, Prod.mk.injEq] at h
    rw [← h.2]
  | cons m ms ih =>
    intro vis b vis' h
    rw [dshList] at h
    cases hr : rec m vis with
    | none => simp [hr] at h
    | some p =>
      obtain ⟨b0, vis0⟩ := p
      cases b0 with
      | true =>
        simp only [hr, Option.some.injEq, Prod.mk.injEq] at h
        rw [← h.2]
        exact hrec m vis true vis0 hr
      | false =>
        simp only [hr] at h
        exact (hrec m vis false vis0 hr).trans (ih vis0 b vis' h)

theorem dshVal_grow (heap : Heap) (text : String) :
    ∀ (fuel : Nat) (v : HVal) (vis b vis'),
      dshVal heap text fuel v vis = some (b, vis') → vis ⊆ vis' := by
  intro fuel
  induction fuel with
  | zero =>
    intro v vis b vis' h
    cases v with
    | vstr s =>
      simp only [dshVal, Option.some.injEq, Prod.mk.injEq] at h
      rw [← h.2]
    | vref a =>
      by_cases ha : a ∈ vis
      · simp only [dshVal, if_pos ha, Option.some.injEq, Prod.mk.injEq] at h
        rw [← h.2]
      · simp [dshVal, ha] at h
    | vnum n =>
      simp only [dshVal, Option.some.injEq, Prod.mk.injEq] at h
      rw [← h.2]
    | vbool b2 =>
      simp only [dshVal, Option.some.injEq, Prod.mk.injEq] at h
      rw [← h.2]
    | vnull =>
      simp only [dshVal, Option.some.injEq, Prod.mk.injEq] at h
      rw [← h.2]
    | vundef =>
      simp only [dshVal, Option.some.injEq, Prod.mk.injEq] at h
      rw [← h.2]
  | succ f ih =>
    intro v vis b vis' h
    cases v with
    | vstr s =>
      simp only [dshVal, Option.some.injEq, Prod.mk.injEq] at h
      rw [← h.2]
    | vref a =>
      by_cases ha : a ∈ vis
      · simp only [dshVal, if_pos ha, Option.some.injEq, Prod.mk.injEq] at h
        rw [← h.2]
      · simp only [dshVal, if_neg ha] at h
        have := dshList_grow (fun m vis b vis' hh => ih m vis b vis' hh)
          (nodeVals heap a) (insert a vis) b vis' h
        exact (Finset.subset_insert a vis).trans this
    | vnum n =>
      simp only [dshVal, Option.some.injEq, Prod.mk.injEq] at h
      rw [← h.2]
    | vbool b2 =>
      simp only [dshVal, Option.some.injEq, Prod.mk.injEq] at h
      rw [← h.2]
    | vnull =>
      simp only [dshVal, Option.some.injEq, Prod.mk.injEq] at h
      rw [← h.2]
    | vundef =>
      simp only [dshVal, Option.some.injEq, Prod.mk.injEq] at h
      rw [← h.2]

theorem dshList_sound {heap : Heap} {text : String}
    {rec : HVal → Finset Nat → Option (Bool × Finset Nat)}
    (hgrow : ∀ m vis b vis', rec m vis = some (b, vis') → vis ⊆ vis')
    (hsound : ∀ m vis vis', rec m vis = some (true, vis') → Finds heap text m vis) :
    ∀ (l : List HVal) (vis vis'), dshList rec l vis = some (true, vis') →
      ∃ m ∈ l, Finds heap text m vis := by
  intro l
  induction l with
  | nil => intro vis vis' h; simp [dshList] at h
  | cons m ms ih =>
    intro vis vis' h
    rw [dshList] at h
    cases hr : rec m vis with
    | none => simp [hr] at h
    | some p =>
      obtain ⟨b0, vis0⟩ := p
      cases b0 with
      | true => exact ⟨m, List.mem_cons_self m ms, hsound m vis vis0 hr⟩
      | false =>
        simp only [hr] at h
        obtain ⟨m', hm', hf⟩ := ih vis0 vis' h
        exact ⟨m', List.mem_cons_of_mem m hm',
          Finds.anti (hgrow m vis false vis0 hr) hf⟩

theorem dshVal_sound (heap : Heap) (text : String) :
    ∀ (fuel : Nat) (v : HVal) (vis vis'),
      dshVal heap text fuel v vis = some (true, vis') → Finds heap text v vis := by
  intro fuel
  induction fuel with
  | zero =>
    intro v vis vis' h
    cases v with
    | vstr s =>
      simp only [dshVal, Option.some.injEq, Prod.mk.injEq] at h
      exact Finds.str h.1
    | vref a =>
      by_cases ha : a ∈ vis <;> simp [dshVal, ha] at h
    | vnum n => simp [dshVal] at h
    | vbool b2 => simp [dshVal] at h
    | vnull => simp [dshVal] at h
    | vundef => simp [dshVal] at h
  | succ f ih =>
    intro v vis vis' h
    cases v with
    | vstr s =>
      simp only [dshVal, Option.some.injEq, Prod.mk.injEq] at h
      exact Finds.str h.1
    | vref a =>
      by_cases ha : a ∈ vis
      · simp [dshVal, ha] at h
      · simp only [dshVal, if_neg ha] at h
        obtain ⟨m, hm, hf⟩ := dshList_sound
          (fun m vis b vis' hh => dshVal_grow heap text f m vis b vis' hh)
          (fun m vis vis' hh => ih m vis vis' hh)
          (nodeVals heap a) (insert a vis) vis' h
        exact Finds.ref ha hm (Finds.anti (Finset.subset_insert a vis) hf)
    | vnum n => simp [dshVal] at h
    | vbool b2 => simp [dshVal] at h
    | vnull => simp [dshVal] at h
    | vundef => simp [dshVal] at h

theorem dshList_complete {heap : Heap} {text : String}
    {rec : HVal → Finset Nat → Option (Bool × Finset Nat)}
    (hgrow : ∀ m vis b vis', rec m vis = some (b, vis') → vis ⊆ vis')
    (hcomp : ∀ m vis vis', rec m vis = some (false, vis') →
      (∀ w, Finds heap text w vis → Finds heap text w vis') ∧
        ¬ Finds heap text m vis') :
    ∀ (l : List HVal) (vis vis'), dshList rec l vis = some (false, vis') →
      (∀ w, Finds heap text w vis → Finds heap text w vis') ∧
        ∀ m ∈ l, ¬ Finds heap text m vis' := by
  intro l
  induction l with
  | nil =>
    intro vis vis' h
    simp only [dshList, Option.some.injEq, Prod.mk.injEq] at h
    rw [← h.2]
    exact ⟨fun w hw => hw, by simp⟩
  | cons m ms ih =>
    intro vis vis' h
    rw [dshList] at h
    cases hr : rec m vis with
    | none => simp [hr] at h
    | some p =>
      obtain ⟨b0, vis0⟩ := p
      cases b0 with
      | true => simp [hr] at h
      | false =>
        simp only [hr] at h
        obtain ⟨pres2, neg2⟩ := ih vis0 vis' h
        obtain ⟨pres1, neg1⟩ := hcomp m vis vis0 hr
        have hgrow2 : vis0 ⊆ vis' := dshList_grow hgrow ms vis0 false vis' h
        refine ⟨fun w hw => pres2 w (pres1 w hw), ?_⟩
        intro m' hm'
        rcases List.mem_cons.mp hm' with rfl | hmem
        · exact fun hf => neg1 (Finds.anti hgrow2 hf)
        · exact neg2 m' hmem

theorem dshVal_complete (heap : Heap) (text : String) :
    ∀ (fuel : Nat) (v : HVal) (vis vis'),
      dshVal heap text fuel v vis = some (false, vis') →
        (∀ w, Finds heap text w vis → Finds heap text w vis') ∧
          ¬ Finds heap text v vis' := by
  intro fuel
  induction fuel with
  | zero =>
    intro v vis vis' h
    cases v with
    | vstr s =>
      simp only [dshVal, Option.some.injEq, Prod.mk.injEq] at h
      obtain ⟨hs, rfl⟩ := h
      refine ⟨fun w hw => hw, fun hf => ?_⟩
      cases hf with
      | str h2 => rw [h2] at hs; simp at hs
    | vref a =>
      by_cases ha : a ∈ vis
      · simp only [dshVal, if_pos ha, Option.some.injEq, Prod.mk.injEq] at h
        obtain ⟨-, rfl⟩ := h
        refine ⟨fun w hw => hw, fun hf => ?_⟩
        cases hf with
        | ref ha2 _ _ => exact ha2 ha
      · simp [dshVal, ha] at h
    | vnum n =>
      simp only [dshVal, Option.some.injEq, Prod.mk.injEq] at h
      obtain ⟨-, rfl⟩ := h
      exact ⟨fun w hw => hw, fun hf => nomatch hf⟩
    | vbool b2 =>
      simp only [dshVal, Option.some.injEq, Prod.mk.injEq] at h
      obtain ⟨-, rfl⟩ := h
      exact ⟨fun w hw => hw, fun hf => nomatch hf⟩
    | vnull =>
      simp only [dshVal, Option.some.injEq, Prod.mk.injEq] at h
      obtain ⟨-, rfl⟩ := h
      exact ⟨fun w hw => hw, fun hf => nomatch hf⟩
    | vundef =>
      simp only [dshVal, Option.some.injEq, Prod.mk.injEq] at h
      obtain ⟨-, rfl⟩ := h
      exact ⟨fun w hw => hw, fun hf => nomatch hf⟩
  | succ f ih =>
    intro v vis vis' h
    cases v with
    | vstr s =>
      simp only [dshVal, Option.some.injEq, Prod.mk.injEq] at h
      obtain ⟨hs, rfl⟩ := h
      refine ⟨fun w hw => hw, fun hf => ?_⟩
      cases hf with
      | str h2 => rw [h2] at hs; simp at hs
    | vref a =>
      by_cases ha : a ∈ vis
      · simp only [dshVal, if_pos ha, Option.some.injEq, Prod.mk.injEq] at h
        obtain ⟨-, rfl⟩ := h
        refine ⟨fun w hw => hw, fun hf => ?_⟩
        cases hf with
        | ref ha2 _ _ => exact ha2 ha
      · simp only [dshVal, if_neg ha] at h
        obtain ⟨presL, negL⟩ := dshList_complete
          (fun m vis b vis' hh => dshVal_grow heap text f m vis b vis' hh)
          (fun m vis vis' hh => ih m vis vis' hh)
          (nodeVals heap a) (insert a vis) vis' h
        have hins : insert a vis ⊆ vis' :=
          dshList_grow (fun m vis b vis' hh => dshVal_grow heap text f m vis b vis' hh)
            (nodeVals heap a) (insert a vis) false vis' h
        refine ⟨fun w hw => ?_, fun hf => ?_⟩
        · rcases finds_insert a hw with h1 | ⟨m, hm, h1⟩
          · exact presL w h1
          · exact absurd (presL m h1) (negL m hm)
        · cases hf with
          | ref ha2 _ _ => exact ha2 (hins (Finset.mem_insert_self a vis))
    | vnum n =>
      simp only [dshVal, Option.some.injEq, Prod.mk.injEq] at h
      obtain ⟨-, rfl⟩ := h
      exact ⟨fun w hw => hw, fun hf => nomatch hf⟩
    | vbool b2 =>
      simp only [dshVal, Option.some.injEq, Prod.mk.injEq] at h
      obtain ⟨-, rfl⟩ := h
      exact ⟨fun w hw => hw, fun hf => nomatch hf⟩
    | vnull =>
      simp only [dshVal, Option.some.injEq, Prod.mk.injEq] at h
      obtain ⟨-, rfl⟩ := h
      exact ⟨fun w hw => hw, fun hf => nomatch hf⟩
    | vundef =>
      simp only [dshVal, Option.some.injEq, Prod.mk.injEq] at h
      obtain ⟨-, rfl⟩ := h
      exact ⟨fun w hw => hw, fun hf => nomatch hf⟩

theorem dshList_isSome {n F : Nat}
    {rec : HVal → Finset Nat → Option (Bool × Finset Nat)}
    (hgrow : ∀ m vis b vis', rec m vis = some (b, vis') → vis ⊆ vis')
    (hrec : ∀ m vis, (Finset.range n \ vis).card < F → (rec m vis).isSome = true) :
    ∀ (l : List HVal) (vis : Finset Nat), (Finset.range n \ vis).card < F →
      (dshList rec l vis).isSome = true := by
  intro l
  induction l with
  | nil => intro vis _; simp [dshList]
  | cons m ms ih =>
    intro vis h
    have h1 := hrec m vis h
    rw [dshList]
    cases hr : rec m vis with
    | none => rw [hr] at h1; simp at h1
    | some p =>
      obtain ⟨b0, vis0⟩ := p
      cases b0 with
      | true => simp
      | false =>
        have hsub := hgrow m vis false vis0 hr
        have hcard : (Finset.range n \ vis0).card ≤ (Finset.range n \ vis).card :=
          Finset.card_le_card
            (Finset.sdiff_subset_sdiff (Finset.Subset.refl _) hsub)
        exact ih vis0 (lt_of_le_of_lt hcard h)

theorem dshVal_fuel_isSome (heap : Heap) (text : String) :
    ∀ (fuel : Nat) (v : HVal) (vis : Finset Nat),
      (Finset.range heap.length \ vis).card < fuel →
        (dshVal heap text fuel v vis).isSome = true := by
  intro fuel
  induction fuel with
  | zero => intro v vis h; exact absurd h (Nat.not_lt_zero _)
  | succ f ih =>
    intro v vis h
    cases v with
    | vstr s => simp [dshVal]
    | vnum n => simp [dshVal]
    | vbool b2 => simp [dshVal]
    | vnull => simp [dshVal]
    | vundef => simp [dshVal]
    | vref a =>
      by_cases ha : a ∈ vis
      · simp [dshVal, ha]
      · simp only [dshVal, if_neg ha]
        by_cases han : a < heap.length
        · apply dshList_isSome
            (fun m vis b vis' hh => dshVal_grow heap text f m vis b vis' hh)
            (fun m vis hh => ih m vis hh)
          have hmem : a ∈ Finset.range heap.length \ vis := by
            simp [Finset.mem_sdiff, Finset.mem_range, han, ha]
          have heq : (Finset.range heap.length \ insert a vis).card =
              (Finset.range heap.length \ vis).card - 1 := by
            rw [Finset.sdiff_insert, Finset.card_erase_of_mem hmem]
          have hpos : 0 < (Finset.range heap.length \ vis).card :=
            Finset.card_pos.mpr ⟨a, hmem⟩
          omega
        · have hd : heap[a]? = none := by
            rw [List.getElem?_eq_none]
            omega
          simp [nodeVals, List.getD, hd, dshList]

/-- The computed result of `deepSearchHelper` decides reachability of a
matching string: the answer is `true` exactly when a string whose
lower-cased form contains `text` is reachable from `v`. -/
theorem deepSearchTop_iff (heap : Heap) (text : String) (v : HVal) :
    deepSearchTop heap text v = true ↔ Finds heap text v ∅ := by
  have hs : (dshVal heap text (heap.length + 1) v ∅).isSome = true := by
    apply dshVal_fuel_isSome
    simp [Finset.sdiff_empty, Finset.card_range]
  obtain ⟨p, hp⟩ := Option.isSome_iff_exists.mp hs
  obtain ⟨b, vis'⟩ := p
  rw [deepSearchTop, hp]
  show b = true ↔ Finds heap text v ∅
  constructor
  · intro hb
    rw [hb] at hp
    exact dshVal_sound heap text (heap.length + 1) v ∅ vis' hp
  · intro hf
    cases b with
    | true => rfl
    | false =>
      obtain ⟨pres, hneg⟩ := dshVal_complete heap text (heap.length + 1) v ∅ vis' hp
      exact absurd (pres v hf) hneg

theorem jsToLower_empty : jsToLower "" = "" := rfl

/-! ### The claims -/

/-- Claim C2: with filters `[f1, f2]`, `search` returns exactly the entries on
which both predicates hold (evaluated in order with short-circuit: the
combined pass test is the `&&`-fold `List.all`, which stops at the first
failing predicate, mirroring `Array.prototype.every`); with no options at
all, every entry of the collection is returned in collection order,
unfiltered, unsorted and unlimited. -/
theorem C2_filter_and_composition :
    (∀ (heap : Heap) (db : List (List Nat × HVal))
        (f1 f2 : HVal → List Nat → Bool),
      search heap db ⟨none, none, none, [f1, f2], none, none⟩ =
        db.filter fun e => f1 e.2 e.1 && f2 e.2 e.1) ∧
    ∀ (heap : Heap) (db : List (List Nat × HVal)),
      search heap db SearchOptions.empty = db := by
  constructor
  · intro heap db f1 f2
    rw [search]
    simp only [Option.getD_none, jsTruthyOr, Option.map_none', List.append_nil,
      if_true]
    rw [getRange_nil_none, searchLoop_no_limit]
    simp [List.all_cons, List.all_nil, Bool.and_true]
  · intro heap db
    rw [search, SearchOptions.empty]
    simp only [Option.getD_none, jsTruthyOr, Option.map_none', List.append_nil,
      if_true]
    rw [getRange_nil_none, searchLoop_no_limit]
    simp [List.all_nil]

/-- Claim C1: for any prefix `p` and any collection whose keys contain no code
unit at or above `U+FFFF`, a prefix search returns exactly the entries
whose key starts with `p` — none that do not — and, the collection being
in ascending key order, the results are in ascending key order.  The
range scanned is `[p, p ++ [0xFFFF])` (unbounded when `p` is empty),
per the definition of `search`. -/
theorem C1_prefix_bounding (heap : Heap) (db : List (List Nat × HVal)) (p : List Nat)
    (hkeys : ∀ e ∈ db, ∀ c ∈ e.1, c < sentinel)
    (hsorted : db.Pairwise fun a b => keyLt a.1 b.1 = true) :
    search heap db ⟨some p, none, none, [], none, none⟩ =
        db.filter (fun e => p.isPrefixOf e.1) ∧
      (search heap db ⟨some p, none, none, [], none, none⟩).Pairwise
        (fun a b => keyLt a.1 b.1 = true) := by
  have hmain : search heap db ⟨some p, none, none, [], none, none⟩ =
      db.filter (fun e => p.isPrefixOf e.1) := by
    rw [search]
    simp only [Option.getD_some, jsTruthyOr, Option.map_none', List.append_nil]
    rw [searchLoop_no_limit]
    simp only [List.nil_append, List.all_nil, List.filter_true]
    by_cases hp : p = []
    · subst hp
      simp only [if_true, getRange_nil_none]
      have htriv : (fun e : List Nat × HVal => List.isPrefixOf [] e.1) =
          fun _ => true := by
        funext e; simp [List.isPrefixOf]
      rw [htriv, List.filter_true]
    · rw [if_neg hp, getRange]
      apply List.filter_congr
      intro e he
      have := range_eq_isPrefixOf p e.1 (hkeys e he)
      simpa using this
  refine ⟨hmain, ?_⟩
  rw [hmain]
  exact List.Pairwise.sublist (List.filter_sublist db) hsorted

/-- Witness for C1 at a concrete collection: keys `[1]`, `[1,2]`, `[2]`
with prefix `[1]` keep exactly the first two entries, in order. -/
theorem C1_prefix_bounding_witness :
    (∀ e ∈ dbP, ∀ c ∈ e.1, c < sentinel) ∧
      (dbP.Pairwise fun a b => keyLt a.1 b.1 = true) ∧
      (search [] dbP ⟨some [1], none, none, [], none, none⟩ =
          dbP.filter (fun e => List.isPrefixOf [1] e.1) ∧
        (search [] dbP ⟨some [1], none, none, [], none, none⟩).Pairwise
          (fun a b => keyLt a.1 b.1 = true)) :=
  ⟨by decide, by decide, C1_prefix_bounding [] dbP [1] (by decide) (by decide)⟩

/-- Claim C3: the deep-search predicate matches exactly when a string whose
lower-cased form contains the (lower-cased) term is reachable through
the nested objects and arrays of the record (`deepSearchTop_iff`); concretely,
the Book record with the nested description matches `deepSearch "pen"`
and `deepSearch "PEN"`, the `{name:"Pen"}` record matches, the record
with no "pen" anywhere does not, and every non-string scalar leaf
(number, boolean, null, undefined) contributes `false`. -/
theorem C3_deep_search_nested :
    (search heap3 db3 ⟨none, none, none, [], some "pen", none⟩ =
        [([1], HVal.vref 0), ([2], HVal.vref 2)] ∧
      search heap3 db3 ⟨none, none, none, [], some "PEN", none⟩ =
        [([1], HVal.vref 0), ([2], HVal.vref 2)]) ∧
    (∀ (heap : Heap) (text : String) (fuel : Nat) (vis : Finset Nat)
        (n : Int) (b : Bool),
      dshVal heap text fuel (HVal.vnum n) vis = some (false, vis) ∧
      dshVal heap text fuel (HVal.vbool b) vis = some (false, vis) ∧
      dshVal heap text fuel HVal.vnull vis = some (false, vis) ∧
      dshVal heap text fuel HVal.vundef vis = some (false, vis)) ∧
    ∀ (heap : Heap) (text : String) (v : HVal),
      deepSearchTop heap text v = true ↔ Finds heap text v ∅ := by
  refine ⟨⟨by decide, by decide⟩, ?_, deepSearchTop_iff⟩
  intro heap text fuel vis n b
  refine ⟨?_, ?_, ?_, ?_⟩ <;> simp [dshVal]

/-- Claim C4: the comparator sort is applied only after accumulation, so
`search` with a comparator equals `jsSort` of the same search without
it; with `limit 2` and sort by `v` over `k1{v:5}, k2{v:1}, k3{v:9},
k4{v:2}`, the result is the first two key-ordered matches sorted —
`[k2{v:1}, k1{v:5}]` — not the two globally smallest values. -/
theorem C4_limit_then_sort :
    (∀ (heap : Heap) (db : List (List Nat × HVal)) (o : SearchOptions)
        (c : HVal → HVal → Int),
      search heap db (setSort o c) = jsSort c (search heap db (clearSort o))) ∧
    search heap4 db4 ⟨none, some 2, some cmp4, [], none, none⟩ =
      [([2], HVal.vref 1), ([1], HVal.vref 0)] := by
  constructor
  · intro heap db o c
    rfl
  · decide

/-- Claim C5: with a positive limit `n` and no comparator, `search` returns
exactly the first `n` matching entries in encounter (key) order — the
`take n` of the filtered stream; the scan stops early: entries beyond
the point where `n` matches have accumulated (the `db2` suffix) do not
affect the result; concretely, five matching entries with `limit 2`
yield exactly `[k1, k2]`. -/
theorem C5_limit_truncation :
    (∀ (heap : Heap) (db : List (List Nat × HVal))
        (fs : List (HVal → List Nat → Bool)) (n : Int), 1 ≤ n →
      search heap db ⟨none, some n, none, fs, none, none⟩ =
        (db.filter fun e => fs.all fun f => f e.2 e.1).take n.toNat) ∧
    (∀ (heap : Heap) (db1 db2 : List (List Nat × HVal))
        (fs : List (HVal → List Nat → Bool)) (n : Int), 1 ≤ n →
      n ≤ ((db1.filter fun e => fs.all fun f => f e.2 e.1).length : Int) →
      search heap (db1 ++ db2) ⟨none, some n, none, fs, none, none⟩ =
        search heap db1 ⟨none, some n, none, fs, none, none⟩) ∧
    search [] db5 ⟨none, some 2, none, [], none, none⟩ =
      [([1], HVal.vnum 1), ([2], HVal.vnum 2)] := by
  have hbase : ∀ (heap : Heap) (db : List (List Nat × HVal))
      (fs : List (HVal → List Nat → Bool)) (n : Int), 1 ≤ n →
      search heap db ⟨none, some n, none, fs, none, none⟩ =
        (db.filter fun e => fs.all fun f => f e.2 e.1).take n.toNat := by
    intro heap db fs n hn
    rw [search]
    simp only [Option.getD_none, jsTruthyOr, Option.map_none', List.append_nil,
      if_true]
    rw [getRange_nil_none, searchLoop_limit_start _ _ _ hn]
  refine ⟨hbase, ?_, by decide⟩
  intro heap db1 db2 fs n hn hlen
  have habs : ∀ (m : Nat) (k : Int), k ≤ (m : Int) → k.toNat ≤ m := by
    clear hlen hn
    intro m k h2
    omega
  have htk := habs _ n hlen
  rw [hbase heap (db1 ++ db2) fs n hn]
  rw [hbase heap db1 fs n hn]
  rw [List.filter_append]
  rw [List.take_append_of_le_length htk]

/-- Witness for C5 at `db5` with `limit 2` and a suffix `db6` that is
never pulled. -/
theorem C5_limit_truncation_witness :
    (1 : Int) ≤ 2 ∧
      (search [] db5 ⟨none, some 2, none, [], none, none⟩ =
        (db5.filter fun e =>
          List.all ([] : List (HVal → List Nat → Bool)) fun f => f e.2 e.1).take
            (2 : Int).toNat) ∧
      search [] (db5 ++ db6) ⟨none, some 2, none, [], none, none⟩ =
        search [] db5 ⟨none, some 2, none, [], none, none⟩ :=
  ⟨by decide, C5_limit_truncation.1 [] db5 [] 2 (by decide),
    C5_limit_truncation.2.1 [] db5 db6 [] 2 (by decide) (by decide)⟩

/-- Counterexample to claim C6: with `limit 0` over a one-entry collection the
result is the first matching entry, not the empty list — the limit check
`results.length >= limit` runs only after the first push. -/
theorem C6_nonpositive_limit_counterexample :
    search [] db6 ⟨none, some 0, none, [], none, none⟩ ≠ [] := by decide

/-- Claim C6 as amended: `search` with a non-positive limit raises no error
(it is total) and stops accumulation right after the first match is
pushed, so the result is the `take 1` of the matching entries — a
single entry when anything matches, empty only when nothing does. -/
theorem C6_nonpositive_limit (heap : Heap) (db : List (List Nat × HVal))
    (fs : List (HVal → List Nat → Bool)) (L : Int) (hL : L ≤ 0) :
    search heap db ⟨none, some L, none, fs, none, none⟩ =
      (db.filter fun e => fs.all fun f => f e.2 e.1).take 1 := by
  rw [search]
  simp only [Option.getD_none, jsTruthyOr, Option.map_none', List.append_nil,
    if_true]
  rw [getRange_nil_none, searchLoop_limit_nonpos _ _ hL]

/-- Witness for the amended C6 at `limit 0` over `db6`. -/
theorem C6_nonpositive_limit_witness :
    (0 : Int) ≤ 0 ∧
      search [] db6 ⟨none, some 0, none, [], none, none⟩ =
        (db6.filter fun e =>
          List.all ([] : List (HVal → List Nat → Bool)) fun f => f e.2 e.1).take 1 :=
  ⟨by decide, C6_nonpositive_limit [] db6 [] 0 (by decide)⟩

/-- Counterexample to claim C7: with `deepSearch: ""` and `query: "hello"`, the
JavaScript `||` lets the non-empty `query` govern (the empty string is
falsy), so the result differs from supplying `deepSearch: ""` alone —
refuting unconditional deepSearch precedence. -/
theorem C7_alias_counterexample :
    search [] db7 ⟨none, none, none, [], some "", some "hello"⟩ ≠
      search [] db7 ⟨none, none, none, [], some "", none⟩ := by decide

/-- Claim C7 as amended: `query: x` behaves identically to `deepSearch: x` for
every term `x`; and when both are supplied, `deepSearch` governs
provided its term is non-empty (an empty `deepSearch` is falsy under
`||`, letting `query` govern). -/
theorem C7_alias_equivalence :
    (∀ (heap : Heap) (db : List (List Nat × HVal)) (p : Option (List Nat))
        (lim : Option Int) (srt : Option (HVal → HVal → Int))
        (fs : List (HVal → List Nat → Bool)) (x : String),
      search heap db ⟨p, lim, srt, fs, none, some x⟩ =
        search heap db ⟨p, lim, srt, fs, some x, none⟩) ∧
    ∀ (heap : Heap) (db : List (List Nat × HVal)) (p : Option (List Nat))
        (lim : Option Int) (srt : Option (HVal → HVal → Int))
        (fs : List (HVal → List Nat → Bool)) (d : String) (q : Option String),
      d ≠ "" →
      search heap db ⟨p, lim, srt, fs, some d, q⟩ =
        search heap db ⟨p, lim, srt, fs, some d, none⟩ := by
  constructor
  · intro heap db p lim srt fs x
    by_cases hx : x = ""
    · subst hx
      rw [search, search]
      simp [jsTruthyOr, jsToLower_empty]
    · rw [search, search]
      simp [jsTruthyOr, hx]
  · intro heap db p lim srt fs d q hd
    rw [search, search]
    simp [jsTruthyOr, hd]

/-- Witness for the amended C7: with `deepSearch: "pen"` and
`query: "hello"`, the result over `db7` matches `deepSearch: "pen"`
alone. -/
theorem C7_alias_equivalence_witness :
    "pen" ≠ "" ∧
      search [] db7 ⟨none, none, none, [], some "pen", some "hello"⟩ =
        search [] db7 ⟨none, none, none, [], some "pen", none⟩ :=
  ⟨by decide,
    C7_alias_equivalence.2 [] db7 none none none [] "pen" (some "hello") (by decide)⟩

/-- Claim C8: the deep-search helper terminates on every input, including
cyclic object graphs: a reference already in the visited set returns
`false` immediately instead of recursing; with the fuel supplied by
`deepSearchTop` (which exceeds the visited-set growth possible in any
heap) the helper always returns a boolean; on the self-referential
record `{self:<itself>, name:"needle"}` it returns `true` for a term
reachable through the cycle and `false` otherwise. -/
theorem C8_terminates_on_cycles :
    (∀ (heap : Heap) (text : String) (fuel : Nat) (a : Nat) (vis : Finset Nat),
      dshVal heap text fuel (HVal.vref a) (insert a vis) =
        some (false, insert a vis)) ∧
    (∀ (heap : Heap) (text : String) (v : HVal),
      (dshVal heap text (heap.length + 1) v ∅).isSome = true) ∧
    deepSearchTop heapC "needle" (HVal.vref 0) = true ∧
    deepSearchTop heapC "absent" (HVal.vref 0) = false := by
  refine ⟨?_, ?_, by decide, by decide⟩
  · intro heap text fuel a vis
    cases fuel with
    | zero => simp [dshVal]
    | succ f => simp [dshVal]
  · intro heap text v
    apply dshVal_fuel_isSome
    simp [Finset.sdiff_empty, Finset.card_range]

/-- Claim C9: every result is a selection of pairs from the scanned stream:
without a comparator the result is a sublist of the collection (so each
pair was yielded by the range scan with its stored value, in key order
when the collection is key-ordered); a comparator only permutes the
accumulated pairs (`search` with sort is a permutation of `search`
without it, and equals `jsSort` of it); key uniqueness of the
collection carries over to the result. -/
theorem C9_result_invariants :
    (∀ (heap : Heap) (db : List (List Nat × HVal)) (o : SearchOptions),
      (search heap db (clearSort o)).Sublist db) ∧
    (∀ (heap : Heap) (db : List (List Nat × HVal)) (o : SearchOptions),
      (search heap db o).Perm (search heap db (clearSort o))) ∧
    (∀ (heap : Heap) (db : List (List Nat × HVal)) (o : SearchOptions),
      (db.map Prod.fst).Nodup → ((search heap db o).map Prod.fst).Nodup) ∧
    (∀ (heap : Heap) (db : List (List Nat × HVal)) (o : SearchOptions),
      db.Pairwise (fun a b => keyLt a.1 b.1 = true) →
        (search heap db (clearSort o)).Pairwise
          (fun a b => keyLt a.1 b.1 = true)) ∧
    ∀ (heap : Heap) (db : List (List Nat × HVal)) (o : SearchOptions)
        (c : HVal → HVal → Int),
      search heap db (setSort o c) = jsSort c (search heap db (clearSort o)) := by
  have hsub : ∀ (heap : Heap) (db : List (List Nat × HVal)) (o : SearchOptions),
      (search heap db (clearSort o)).Sublist db := by
    intro heap db o
    rw [search]
    refine (searchLoop_sublist _ _ _ _).trans ?_
    rw [List.nil_append, getRange]
    exact List.filter_sublist db
  have hperm : ∀ (heap : Heap) (db : List (List Nat × HVal)) (o : SearchOptions),
      (search heap db o).Perm (search heap db (clearSort o)) := by
    intro heap db o
    obtain ⟨p, lim, srt, fs, d, q⟩ := o
    cases srt with
    | none => exact List.Perm.refl _
    | some c => exact List.perm_insertionSort _ _
  refine ⟨hsub, hperm, ?_, ?_, ?_⟩
  · intro heap db o h
    have h1 : ((search heap db (clearSort o)).map Prod.fst).Nodup :=
      List.Nodup.sublist (List.Sublist.map _ (hsub heap db o)) h
    exact (List.Perm.nodup_iff (List.Perm.map _ (hperm heap db o))).mpr h1
  · intro heap db o h
    exact List.Pairwise.sublist (hsub heap db o) h
  · intro heap db o c
    rfl

/-- Witness for the conditional parts of C9 at the deep-search fixture. -/
theorem C9_result_invariants_witness :
    ((db3.map Prod.fst).Nodup ∧
        ((search heap3 db3 SearchOptions.empty).map Prod.fst).Nodup) ∧
      (db3.Pairwise (fun a b => keyLt a.1 b.1 = true) ∧
        (search heap3 db3 (clearSort SearchOptions.empty)).Pairwise
          (fun a b => keyLt a.1 b.1 = true)) :=
  ⟨⟨by decide, C9_result_invariants.2.2.1 heap3 db3 SearchOptions.empty (by decide)⟩,
    ⟨by decide,
      C9_result_invariants.2.2.2.1 heap3 db3 SearchOptions.empty (by decide)⟩⟩

/-- Claim C10: supplying `deepSearch` (or `query`) as the empty string behaves
exactly as if the field were absent — the empty string is falsy under
`||` and under the `if (searchText)` guard, so no deep-search predicate
is appended; in particular a record with no string fields still passes
(while the predicate itself, if it were applied with an empty term,
would reject that record); and with an empty `deepSearch` next to a
non-empty `query`, the query term governs (the `query` slot `q` is
arbitrary in the first conjunct). -/
theorem C10_empty_term_ignored :
    (∀ (heap : Heap) (db : List (List Nat × HVal)) (p : Option (List Nat))
        (lim : Option Int) (srt : Option (HVal → HVal → Int))
        (fs : List (HVal → List Nat → Bool)) (q : Option String),
      search heap db ⟨p, lim, srt, fs, some "", q⟩ =
        search heap db ⟨p, lim, srt, fs, none, q⟩) ∧
    search heap10 db10 ⟨none, none, none, [], some "", none⟩ = db10 ∧
    deepSearchTop heap10 "" (HVal.vref 0) = false := by
  refine ⟨?_, by decide, by decide⟩
  intro heap db p lim srt fs q
  rfl
